import Mathlib

/-!
Verification development for the symbolic tensor-algebra module
`Waveforms/simpletensors.py`.

Shallow embedding conventions:
* The opaque sympy `Scalar` collaborator is modelled as `Rat` (exact rational
  arithmetic); sympy's `simplify` acts as the identity on exact rationals and
  the equality-to-zero test is decidable equality with `0`.
* Python strings are modelled as `List Char`.
* A Python function that can raise is modelled with `Option`/`Except`; the
  particular exception raised is recorded in the result type.
* Vectors, tensor products and tensors are modelled by the structures `Vec`,
  `TP` and `Tensor` holding exactly the data the dynamically created classes
  carry (`name`/`components`/constancy, `vectors`/`coefficient`/`symmetric`,
  `tensor_products`).
-/

/-- Sympy `simplify`, restricted to the exact rational scalars of this model,
is the identity. It is kept as a named function so the definitions below
mirror the source text. -/
def simplify (q : Rat) : Rat := q

/-- A vector: `_VectorFunction` instances carry a display name, the list of
component scalars (`components`), and whether the vector was built by
`VectorConstant` (whose `_eval_derivative` is `lambda ...: 0`). -/
structure Vec where
  name : List Char
  components : List Rat
  isConstant : Bool
deriving DecidableEq, Repr

instance : Inhabited Vec := ⟨⟨[], [], false⟩⟩

/-- Python `VectorConstant(Name, Components)`: a vector whose derivative
evaluates to the scalar `0`. -/
def VectorConstant (name : List Char) (components : List Rat) : Vec :=
  ⟨name, components, true⟩

/-- Python `_VectorFunction.__or__`: `sum(s*o for s,o in zip(self, other))`.
`zip` stops at the shorter of the two component lists; there is no dimension
check in the source. -/
def vecDot (v w : Vec) : Rat :=
  (List.zipWith (fun s o => s * o) v.components w.components).sum

/-- A tensor product: `_TensorProductFunction` instances carry the ordered
list of vectors, the scalar coefficient and the `symmetric` flag. -/
structure TP where
  vectors : List Vec
  coefficient : Rat
  symmetric : Bool
deriving DecidableEq, Repr

instance : Inhabited TP := ⟨⟨[], 0, false⟩⟩

/-- Python `_TensorProductFunction.rank`: `len(self.vectors)`. -/
def TP.rank (t : TP) : Nat := t.vectors.length

/-- Python `_TensorProductFunction.has_same_basis_element`: when `self` is
symmetric the two vector lists are compared as multisets
(`Counter(self.vectors) == Counter(B.vectors)`), otherwise as ordered lists;
the flag of the argument `B` is never consulted. -/
def hasSameBasisElement (a b : TP) : Bool :=
  if a.symmetric then decide (a.vectors.Perm b.vectors)
  else decide (a.vectors = b.vectors)

/-- Python `ordered_as(index_set)` composed with the zip/product in the
symmetric branch of `_TensorProductFunction.__or__`: the sum over all
permutations of `range(rank)` of the products of pairwise dots. -/
def permSum (A B : TP) : Rat :=
  ((List.range A.rank).permutations.map
    (fun idx =>
      (List.zipWith vecDot (idx.map (fun i => A.vectors.getD i default)) B.vectors).prod)).sum

/-- Python `_TensorProductFunction.__or__` for a tensor-product argument.
`none` models the `ValueError` raised on a rank mismatch.

The symmetric branch of the source reads
`simplify(self.coefficient*B.coefficient*frac(1,factorial(self.rank)))`,
but `factorial` is never imported in `simpletensors.py` (only `simplify`,
`Function`, `latex`, `prod`, `Symbol`, `flatten`, `Rational` are), so that
branch raises `NameError` at run time; it is modelled here with the evidently
intended `Nat.factorial`. -/
def tpContract (A B : TP) : Option Rat :=
  if B.rank ≠ A.rank then none
  else if A.symmetric then
    let c := simplify (A.coefficient * B.coefficient * (1 / (Nat.factorial A.rank : Rat)))
    if c = 0 then some 0
    else some (simplify (c * permSum A B))
  else some ((A.coefficient * B.coefficient) * (List.zipWith vecDot A.vectors B.vectors).prod)

/-- A tensor: `_TensorFunction` instances carry the list `tensor_products`. -/
structure Tensor where
  terms : List TP
deriving DecidableEq, Repr

/-- Python `_TensorFunction.rank`: `0` when the term list is empty, otherwise
the rank of the first term. -/
def Tensor.rank (t : Tensor) : Nat :=
  match t.terms with
  | [] => 0
  | tp :: _ => tp.rank

/-- The result of `_VectorFunction.diff`: either a plain scalar (the `0`
returned by the derivative lambda installed by `VectorConstant`) or a new
vector with a bumped display name and differentiated components. -/
inductive VecDiffResult where
  | scalar (q : Rat)
  | vec (name : Option (List Char)) (components : List Rat)
deriving DecidableEq, Repr

/-- Discriminator: is a `diff` result an actual vector? -/
def VecDiffResult.isVec : VecDiffResult → Bool
  | .vec _ _ => true
  | .scalar _ => false

/-- The constant vectors of the end-to-end scenario of the spec. -/
def e1c : Vec := VectorConstant ['e', '1'] [1, 0, 0]

/-- The second constant vector of the end-to-end scenario. -/
def e2c : Vec := VectorConstant ['e', '2'] [0, 1, 0]

/-- Helper for stating `vecDot` as an indexed sum. -/
lemma zipWith_mul_sum_eq (as : List Rat) :
    ∀ bs : List Rat,
      (List.zipWith (fun s o => s * o) as bs).sum =
        ∑ i ∈ Finset.range (min as.length bs.length), as.getD i 0 * bs.getD i 0 := by
  induction as with
  | nil => intro bs; simp
  | cons a as ih =>
    intro bs
    cases bs with
    | nil => simp
    | cons b bs =>
      simp only [List.zipWith, List.sum_cons, List.length_cons]
      rw [Nat.succ_min_succ, Finset.sum_range_succ', ih bs]
      simp [List.getD, add_comm]

/-- Split a string at the first occurrence of the two-character pattern
`^{`, returning the text before it and the text after it. This models the
lazy `\\partial_.*?\^\{` part of the regex in `DifferentiateString`: the
regex engine takes the earliest possible `^{`. -/
def splitFirstCaretBrace : List Char → Option (List Char × List Char)
  | [] => none
  | [_] => none
  | a :: b :: rest =>
    if a = '^' ∧ b = '\x7b' then some ([], rest)
    else
      match splitFirstCaretBrace (b :: rest) with
      | some (pre, body) => some (a :: pre, body)
      | none => none

/-- Split a string at the last occurrence of `}`, returning the text before
and after it. This models the greedy `(.*)\}(.*)` tail of the regex in
`DifferentiateString`: group 1 extends to the last `}` of the string. -/
def splitLastBrace : List Char → Option (List Char × List Char)
  | [] => none
  | c :: rest =>
    match splitLastBrace rest with
    | some (a, b) => some (c :: a, b)
    | none => if c = '\x7d' then some ([], rest) else none

/-- Numeric value of a decimal digit character. -/
def digitVal (c : Char) : Nat := c.toNat - 48

/-- Value of a list of decimal digit characters, most significant first. -/
def digitsVal (cs : List Char) : Nat :=
  cs.foldl (fun n c => 10 * n + digitVal c) 0

/-- Python `int(str)` restricted to the numerals that occur in derivative
markers: an optional minus sign followed by decimal digits; `none` models the
`ValueError` raised on any other content. -/
def parseInt (cs : List Char) : Option Int :=
  if cs.head? = some '-' then
    if cs.tail.isEmpty then none
    else if cs.tail.all Char.isDigit then some (-(digitsVal cs.tail : Int)) else none
  else if cs.isEmpty then none
  else if cs.all Char.isDigit then some ((digitsVal cs : Int)) else none

/-- Decimal rendering of a natural number (the effect of Python's
`'{}'.format(k)` on a nonnegative int), written with explicit fuel so that
it is structurally recursive and evaluates inside `decide`. -/
def natToStrAux : Nat → Nat → List Char
  | 0, _ => []
  | fuel + 1, n =>
    if n < 10 then [Char.ofNat (48 + n)]
    else natToStrAux fuel (n / 10) ++ [Char.ofNat (48 + n % 10)]

/-- Decimal rendering of a natural number. -/
def natToStr (n : Nat) : List Char := natToStrAux (n + 1) n

/-- Decimal rendering of an integer. -/
def intToStr (i : Int) : List Char :=
  if i < 0 then '-' :: natToStr i.natAbs else natToStr i.toNat

/-- The string `\partial_` followed by the parameter: the stem of every
derivative marker produced by `DifferentiateString`. -/
def derivStem (param : List Char) : List Char := "\\partial_".toList ++ param

/-- Python `DifferentiateString(s, param)`.

Branch 1 (`s` starts with `\partial_<param>^{`): the source applies
`re.sub(r'\\partial_.*?\^\{(.*)\}(.*)', increment_match, s)`; the match
anchors at position 0, the lazy part selects the first `^{`, group 1 extends
greedily to the last `}` of the string and group 2 is the remainder, and the
replacement is `\partial_<param>^{int(group1)+1}<group2>`. When the regex
does not match (no `}` after the first `^{`) `re.sub` returns `s` unchanged;
when `int(group1)` fails the call raises `ValueError`, modelled as `none`.

Branch 2 (`s` starts with `\partial_<param>` but not with
`\partial_<param>^{`): returns `\partial_<param>^{2}` + `s[10:]` — note the
fixed 10-character slice, independent of the length of `param`.

Branch 3: prepends `\partial_<param> ` (with a trailing space). -/
def differentiateString (s param : List Char) : Option (List Char) :=
  if (derivStem param ++ ['^', '\x7b']).isPrefixOf s then
    match splitFirstCaretBrace s with
    | none => some s
    | some (_, body) =>
      match splitLastBrace body with
      | none => some s
      | some (g1, g2) =>
        match parseInt g1 with
        | none => none
        | some k => some (derivStem param ++ ['^', '\x7b'] ++ intToStr (k + 1) ++ ['\x7d'] ++ g2)
  else if (derivStem param).isPrefixOf s then
    some (derivStem param ++ ['^', '\x7b', '2', '\x7d'] ++ s.drop 10)
  else
    some (derivStem param ++ [' '] ++ s)

/-- Python `_VectorFunction.diff` / `_eval_derivative`. A constant vector's
derivative lambda returns the plain scalar `0`; a non-constant vector is
rebuilt with `DifferentiateString` applied to its name and each component
differentiated by the opaque sympy derivative, abstracted here as the
function argument `d`. -/
def vectorDiff (d : Rat → Rat) (v : Vec) (param : List Char) : VecDiffResult :=
  if v.isConstant then .scalar 0
  else .vec (differentiateString v.name param) (v.components.map d)

/-- One iteration of the inner `j`-loop of `_TensorFunction.compress`. The
state is the current term list (coefficients mutate in place, so the list is
threaded) together with `removed_elements`. When `j` is not yet removed and
term `j` has the same basis element as term `i`, term `i`'s coefficient is
rewritten to the simplified sum and `j` is appended to `removed_elements`. -/
def compressInnerStep (i j : Nat) (st : List TP × List Nat) : List TP × List Nat :=
  if j ∈ st.2 then st
  else if hasSameBasisElement (st.1.getD i default) (st.1.getD j default) then
    (st.1.set i { st.1.getD i default with
        coefficient := simplify ((st.1.getD i default).coefficient +
          (st.1.getD j default).coefficient) },
     st.2 ++ [j])
  else st

/-- The inner `for j in range(i+1, len(...))` loop of `compress`. -/
def compressInner (i : Nat) : List Nat → (List TP × List Nat) → List TP × List Nat
  | [], st => st
  | j :: js, st => compressInner i js (compressInnerStep i j st)

/-- The `if removed_elements:` tail of the outer loop body of `compress`:
only when `removed_elements` is non-empty is term `i` dropped as well if its
(merged) coefficient is zero. -/
def compressZeroCheck (i : Nat) (st : List TP × List Nat) : List TP × List Nat :=
  if st.2 ≠ [] ∧ (st.1.getD i default).coefficient = 0 then (st.1, st.2 ++ [i]) else st

/-- One iteration of the outer `i`-loop of `compress`: skip `i` if already
removed; run the inner loop; then apply the zero-coefficient check. -/
def compressOuterStep (n i : Nat) (st : List TP × List Nat) : List TP × List Nat :=
  if i ∈ st.2 then st
  else compressZeroCheck i (compressInner i (List.range' (i + 1) (n - (i + 1))) st)

/-- The outer `for i in range(len(...))` loop of `compress`. -/
def compressOuter (n : Nat) : List Nat → (List TP × List Nat) → List TP × List Nat
  | [], st => st
  | i :: is, st => compressOuter n is (compressOuterStep n i st)

/-- Python `_TensorFunction.compress`, at the level of the term list: run the
double loop, then rebuild `self.tensor_products` from the terms whose index
is not in `removed_elements`. -/
def compressTerms (ts : List TP) : List TP :=
  let st := compressOuter ts.length (List.range ts.length) (ts, [])
  ((List.range st.1.length).filter (fun k => decide (k ∉ st.2))).map
    (fun k => st.1.getD k default)

/-- Python `_TensorFunction.compress` at the tensor level: `none` models the
plain scalar `0` returned when no terms remain. -/
def tensorCompress (t : Tensor) : Option Tensor :=
  let ts := compressTerms t.terms
  if ts.isEmpty then none else some ⟨ts⟩


/-- Reading an updated list: position `i` holds the new value when `i` is in
range, every other position is unchanged. -/
lemma getD_set {α : Type} (l : List α) (i k : Nat) (x d : α) :
    (l.set i x).getD k d = if i = k ∧ i < l.length then x else l.getD k d := by
  induction l generalizing i k with
  | nil => simp [List.getD]
  | cons c cs ih =>
    cases i with
    | zero => cases k <;> simp [List.getD]
    | succ i =>
      cases k with
      | zero => simp [List.getD]
      | succ k =>
        simp only [List.set, List.getD_cons_succ, List.length_cons, ih]
        have hiff : (i + 1 = k + 1 ∧ i + 1 < cs.length + 1) ↔ (i = k ∧ i < cs.length) := by omega
        rw [if_congr hiff rfl rfl]

/-- Rebuilding a list by reading every index in order yields the list. -/
lemma map_getD_range {α : Type} (l : List α) (d : α) :
    (List.range l.length).map (fun k => l.getD k d) = l := by
  apply List.ext_getElem
  · simp
  · intro i h1 h2
    simp only [List.getElem_map, List.getElem_range]
    exact List.getD_eq_getElem l d h2

/-- The data of a tensor product that `has_same_basis_element` consults:
the vector list and the symmetry flag of the receiver. -/
def basisOf (t : TP) : List Vec × Bool := (t.vectors, t.symmetric)

/-- Basis-element comparison only depends on the `basisOf` data of both
arguments: rewriting a coefficient never changes it. -/
lemma hasSame_congr {a a' b b' : TP} (ha : basisOf a = basisOf a')
    (hb : basisOf b = basisOf b') :
    hasSameBasisElement a b = hasSameBasisElement a' b' := by
  unfold basisOf at ha hb
  have ha1 : a.vectors = a'.vectors := congrArg Prod.fst ha
  have ha2 : a.symmetric = a'.symmetric := congrArg Prod.snd ha
  have hb1 : b.vectors = b'.vectors := congrArg Prod.fst hb
  unfold hasSameBasisElement
  rw [ha1, ha2, hb1]

/-- Behaviour of one inner-loop step when `j` was already removed. -/
lemma compressInnerStep_of_mem {i j : Nat} {st : List TP × List Nat} (hj : j ∈ st.2) :
    compressInnerStep i j st = st := by
  rw [compressInnerStep, if_pos hj]

/-- Behaviour of one inner-loop step when `j` is live and merges into `i`. -/
lemma compressInnerStep_of_same {i j : Nat} {st : List TP × List Nat} (hj : j ∉ st.2)
    (hs : hasSameBasisElement (st.1.getD i default) (st.1.getD j default) = true) :
    compressInnerStep i j st =
      (st.1.set i { st.1.getD i default with
          coefficient := simplify ((st.1.getD i default).coefficient +
            (st.1.getD j default).coefficient) },
       st.2 ++ [j]) := by
  rw [compressInnerStep, if_neg hj, if_pos hs]

/-- Behaviour of one inner-loop step when `j` is live but has a different
basis element. -/
lemma compressInnerStep_of_ne {i j : Nat} {st : List TP × List Nat} (hj : j ∉ st.2)
    (hs : hasSameBasisElement (st.1.getD i default) (st.1.getD j default) = false) :
    compressInnerStep i j st = st := by
  rw [compressInnerStep, if_neg hj, if_neg (by simp only [Bool.not_eq_true]; exact hs)]

/-- Invariant of the compression loops: the working term list has the same
length as the input and the basis data at every position is unchanged (only
coefficients are mutated). -/
def BasesEq (ts0 A : List TP) : Prop :=
  A.length = ts0.length ∧ ∀ k, basisOf (A.getD k default) = basisOf (ts0.getD k default)

lemma basesEq_refl (ts0 : List TP) : BasesEq ts0 ts0 := ⟨rfl, fun _ => rfl⟩

/-- Effect of the inner loop of `compress`: bases are untouched,
`removed_elements` only grows, and every index it visited that is still
unremoved at the end compared unequal (as basis elements) to index `i`. -/
lemma compressInner_spec (ts0 : List TP) (i : Nat) (js : List Nat) :
    ∀ st : List TP × List Nat, BasesEq ts0 st.1 →
      BasesEq ts0 (compressInner i js st).1 ∧
      st.2 ⊆ (compressInner i js st).2 ∧
      (∀ j ∈ js, j ∉ (compressInner i js st).2 →
        hasSameBasisElement (ts0.getD i default) (ts0.getD j default) = false) := by
  induction js with
  | nil =>
    intro st hb
    exact ⟨hb, fun _ h => h, by simp⟩
  | cons j js ih =>
    intro st hb
    have hstep : BasesEq ts0 (compressInnerStep i j st).1 ∧
        st.2 ⊆ (compressInnerStep i j st).2 ∧
        (j ∈ (compressInnerStep i j st).2 ∨
          hasSameBasisElement (ts0.getD i default) (ts0.getD j default) = false) := by
      by_cases hj : j ∈ st.2
      · rw [compressInnerStep_of_mem hj]
        exact ⟨hb, fun _ h => h, Or.inl hj⟩
      · rcases Bool.eq_false_or_eq_true
          (hasSameBasisElement (st.1.getD i default) (st.1.getD j default)) with hs | hs
        · rw [compressInnerStep_of_same hj hs]
          refine ⟨⟨by simpa using hb.1, ?_⟩, ?_, Or.inl (by simp)⟩
          · intro k
            simp only [getD_set]
            by_cases hk : i = k ∧ i < st.1.length
            · rw [if_pos hk, ← hk.1]
              exact hb.2 i
            · rw [if_neg hk]
              exact hb.2 k
          · intro x hx
            simp [hx]
        · rw [compressInnerStep_of_ne hj hs]
          refine ⟨hb, fun _ h => h, Or.inr ?_⟩
          rw [← hasSame_congr (hb.2 i) (hb.2 j)]
          exact hs
    obtain ⟨hb1, hsub1, hjf⟩ := hstep
    obtain ⟨hb2, hsub2, hrest⟩ := ih (compressInnerStep i j st) hb1
    refine ⟨hb2, fun x hx => hsub2 (hsub1 hx), ?_⟩
    intro j' hj' hnot
    rcases List.mem_cons.mp hj' with h | h
    · subst h
      rcases hjf with hmem | hfalse
      · exact absurd (hsub2 hmem) hnot
      · exact hfalse
    · exact hrest j' h hnot

/-- The zero-coefficient check never touches the term list. -/
lemma compressZeroCheck_fst (i : Nat) (st : List TP × List Nat) :
    (compressZeroCheck i st).1 = st.1 := by
  rw [compressZeroCheck]
  split <;> rfl

/-- The zero-coefficient check only grows `removed_elements`. -/
lemma compressZeroCheck_sub (i : Nat) (st : List TP × List Nat) :
    st.2 ⊆ (compressZeroCheck i st).2 := by
  rw [compressZeroCheck]
  split
  · intro x hx
    simp [hx]
  · exact fun _ h => h

/-- Invariant established by the processed prefix of the outer loop: any two
distinct indices below the cursor that both survived compare unequal as
basis elements (stated over the original list, whose bases never change). -/
def Inv2 (ts0 : List TP) (a : Nat) (st : List TP × List Nat) : Prop :=
  ∀ i, i < a → i ∉ st.2 → ∀ j, i < j → j < ts0.length → j ∉ st.2 →
    hasSameBasisElement (ts0.getD i default) (ts0.getD j default) = false

/-- Effect of the outer loop of `compress` on the invariants. -/
lemma compressOuter_spec (ts0 : List TP) :
    ∀ (k a : Nat) (st : List TP × List Nat), a + k ≤ ts0.length →
      BasesEq ts0 st.1 → Inv2 ts0 a st →
      BasesEq ts0 (compressOuter ts0.length (List.range' a k) st).1 ∧
      st.2 ⊆ (compressOuter ts0.length (List.range' a k) st).2 ∧
      Inv2 ts0 (a + k) (compressOuter ts0.length (List.range' a k) st) := by
  intro k
  induction k with
  | zero =>
    intro a st hak hb hinv
    exact ⟨hb, fun _ h => h, hinv⟩
  | succ k ih =>
    intro a st hak hb hinv
    rw [List.range'_succ]
    have hrec : compressOuter ts0.length (a :: List.range' (a + 1) k) st =
        compressOuter ts0.length (List.range' (a + 1) k) (compressOuterStep ts0.length a st) :=
      rfl
    rw [hrec]
    by_cases ha : a ∈ st.2
    · rw [compressOuterStep, if_pos ha]
      have hinv' : Inv2 ts0 (a + 1) st := by
        intro i hi hiR j hij hjn hjR
        rcases Nat.lt_succ_iff_lt_or_eq.mp hi with h | h
        · exact hinv i h hiR j hij hjn hjR
        · exact absurd ha (h ▸ hiR)
      have := ih (a + 1) st (by omega) hb hinv'
      exact ⟨this.1, this.2.1, by have h2 := this.2.2; rwa [show a + 1 + k = a + (k + 1) by omega] at h2⟩
    · rw [compressOuterStep, if_neg ha]
      obtain ⟨hb', hsub', hjf⟩ :=
        compressInner_spec ts0 a (List.range' (a + 1) (ts0.length - (a + 1))) st hb
      have hb1 : BasesEq ts0 (compressZeroCheck a
          (compressInner a (List.range' (a + 1) (ts0.length - (a + 1))) st)).1 := by
        rw [compressZeroCheck_fst]
        exact hb'
      have hsub1 : st.2 ⊆ (compressZeroCheck a
          (compressInner a (List.range' (a + 1) (ts0.length - (a + 1))) st)).2 :=
        fun x hx => compressZeroCheck_sub _ _ (hsub' hx)
      have hsubz := compressZeroCheck_sub a
        (compressInner a (List.range' (a + 1) (ts0.length - (a + 1))) st)
      have hinv1 : Inv2 ts0 (a + 1) (compressZeroCheck a
          (compressInner a (List.range' (a + 1) (ts0.length - (a + 1))) st)) := by
        intro i hi hiR j hij hjn hjR
        have hiR' :
            i ∉ (compressInner a (List.range' (a + 1) (ts0.length - (a + 1))) st).2 :=
          fun h => hiR (hsubz h)
        have hjR' :
            j ∉ (compressInner a (List.range' (a + 1) (ts0.length - (a + 1))) st).2 :=
          fun h => hjR (hsubz h)
        rcases Nat.lt_succ_iff_lt_or_eq.mp hi with h | h
        · exact hinv i h (fun hm => hiR' (hsub' hm)) j hij hjn (fun hm => hjR' (hsub' hm))
        · subst h
          have hjmem : j ∈ List.range' (i + 1) (ts0.length - (i + 1)) := by
            rw [List.mem_range'_1]
            omega
          exact hjf j hjmem hjR'
      have := ih (a + 1) _ (by omega) hb1 hinv1
      exact ⟨this.1, fun x hx => this.2.1 (hsub1 hx),
        by have h2 := this.2.2; rwa [show a + 1 + k = a + (k + 1) by omega] at h2⟩

/-- After the double loop, any two surviving indices hold terms with
different basis elements. -/
lemma compress_state_spec (ts : List TP) :
    BasesEq ts (compressOuter ts.length (List.range ts.length) (ts, [])).1 ∧
    (∀ i j, i < j → j < ts.length →
      i ∉ (compressOuter ts.length (List.range ts.length) (ts, [])).2 →
      j ∉ (compressOuter ts.length (List.range ts.length) (ts, [])).2 →
      hasSameBasisElement (ts.getD i default) (ts.getD j default) = false) := by
  rw [List.range_eq_range']
  have h := compressOuter_spec ts ts.length 0 (ts, []) (by omega) (basesEq_refl ts)
    (by intro i hi; omega)
  exact ⟨h.1, fun i j hij hjn hiR hjR => h.2.2 i (by omega) hiR j hij hjn hjR⟩

/-- The output of `compress` has pairwise distinct basis elements. -/
lemma compressTerms_pairwise (ts : List TP) :
    (compressTerms ts).Pairwise (fun x y => hasSameBasisElement x y = false) := by
  obtain ⟨hb, hdist⟩ := compress_state_spec ts
  unfold compressTerms
  rw [List.pairwise_map]
  refine List.Pairwise.imp_of_mem ?_ ((List.pairwise_lt_range _).filter _)
  intro k1 k2 h1 h2 hlt
  have m1 := List.mem_filter.mp h1
  have m2 := List.mem_filter.mp h2
  have hlen := hb.1
  have hk1n : k1 < ts.length := by
    have := List.mem_range.mp m1.1
    omega
  have hk2n : k2 < ts.length := by
    have := List.mem_range.mp m2.1
    omega
  have hk1R : k1 ∉ (compressOuter ts.length (List.range ts.length) (ts, [])).2 :=
    of_decide_eq_true m1.2
  have hk2R : k2 ∉ (compressOuter ts.length (List.range ts.length) (ts, [])).2 :=
    of_decide_eq_true m2.2
  rw [hasSame_congr (hb.2 k1) (hb.2 k2)]
  exact hdist k1 k2 hlt hk2n hk1R hk2R

/-- On a term list whose entries have pairwise distinct basis elements the
inner loop does nothing. -/
lemma compressInner_fixed (l : List TP)
    (h : l.Pairwise (fun x y => hasSameBasisElement x y = false)) (i : Nat) :
    ∀ js : List Nat, (∀ j ∈ js, i < j ∧ j < l.length) → i < l.length →
      compressInner i js (l, []) = (l, []) := by
  intro js
  induction js with
  | nil => intro _ _; rfl
  | cons j js ih =>
    intro hjs hi
    have hj := hjs j (by simp)
    have hstep : compressInnerStep i j (l, ([] : List Nat)) = (l, []) := by
      apply compressInnerStep_of_ne (by simp)
      have hp := List.pairwise_iff_getElem.mp h i j hi hj.2 hj.1
      rw [List.getD_eq_getElem l default hi, List.getD_eq_getElem l default hj.2]
      exact hp
    have hrec : compressInner i (j :: js) (l, ([] : List Nat)) =
        compressInner i js (compressInnerStep i j (l, [])) := rfl
    rw [hrec, hstep]
    exact ih (fun j' hj' => hjs j' (List.mem_cons_of_mem j hj')) hi

/-- On a term list whose entries have pairwise distinct basis elements the
outer loop does nothing. -/
lemma compressOuter_fixed (l : List TP)
    (h : l.Pairwise (fun x y => hasSameBasisElement x y = false)) :
    ∀ (k a : Nat), a + k ≤ l.length →
      compressOuter l.length (List.range' a k) (l, []) = (l, []) := by
  intro k
  induction k with
  | zero => intro a _; rfl
  | succ k ih =>
    intro a hak
    rw [List.range'_succ]
    have hstep : compressOuterStep l.length a (l, ([] : List Nat)) = (l, []) := by
      rw [compressOuterStep, if_neg (by simp)]
      rw [compressInner_fixed l h a _ ?hjs (by omega)]
      · rw [compressZeroCheck, if_neg (by simp)]
      case hjs =>
        intro j hjm
        rw [List.mem_range'_1] at hjm
        omega
    have hrec : compressOuter l.length (a :: List.range' (a + 1) k) (l, ([] : List Nat)) =
        compressOuter l.length (List.range' (a + 1) k)
          (compressOuterStep l.length a (l, [])) := rfl
    rw [hrec, hstep]
    exact ih (a + 1) (by omega)

/-- Compression of a term list with pairwise distinct basis elements returns
the list unchanged. -/
lemma compressTerms_of_pairwise (l : List TP)
    (h : l.Pairwise (fun x y => hasSameBasisElement x y = false)) :
    compressTerms l = l := by
  have hco : compressOuter l.length (List.range l.length) (l, []) = (l, []) := by
    rw [List.range_eq_range']
    exact compressOuter_fixed l h l.length 0 (by omega)
  unfold compressTerms
  rw [hco]
  simp only [List.not_mem_nil, not_false_iff, decide_True, List.filter_true]
  exact map_getD_range l default

/-- Compression is idempotent at the term-list level. -/
lemma compressTerms_idem (ts : List TP) :
    compressTerms (compressTerms ts) = compressTerms ts :=
  compressTerms_of_pairwise _ (compressTerms_pairwise ts)

/-- Generic two-term compression with equal basis elements: the coefficients
are summed into the first term and the pair is dropped entirely when the sum
is zero (here `removed_elements` is non-empty, so the zero check runs). -/
lemma compressTerms_pair (a b : TP) (h : hasSameBasisElement a b = true) :
    compressTerms [a, b] =
      if a.coefficient + b.coefficient = 0 then []
      else [{ a with coefficient := a.coefficient + b.coefficient }] := by
  by_cases hz : a.coefficient + b.coefficient = 0 <;>
    simp [compressTerms, compressOuter, compressOuterStep, compressZeroCheck, compressInner,
      compressInnerStep, simplify, h, hz, show List.range 2 = [0, 1] from rfl, List.range',
      List.getD]

/-- Singleton compression: with one term no removal ever happens, so the
zero-coefficient check is skipped and the term is kept even if its
coefficient is zero. -/
lemma compressTerms_singleton (c : TP) : compressTerms [c] = [c] := by
  simp [compressTerms, compressOuter, compressOuterStep, compressZeroCheck, compressInner,
    show List.range 1 = [0] from rfl, List.range', List.getD]

/-- C1 (amended): `compress` merges same-basis terms pairwise, summing and
simplifying coefficients; a term whose simplified coefficient is zero is
dropped only when `removed_elements` is already non-empty (in particular a
merged pair summing to zero is dropped, but a lone zero-coefficient term is
kept); the Scalar zero is returned when no terms remain, and the Tensor
built from `TensorProduct(v,w,coefficient=2)` and
`TensorProduct(v,w,coefficient=-2)` compresses to the Scalar zero. -/
theorem c1_compress_pair_merge (a b : TP) (h : hasSameBasisElement a b = true) :
    compressTerms [a, b] =
      (if a.coefficient + b.coefficient = 0 then []
       else [{ a with coefficient := a.coefficient + b.coefficient }]) ∧
    (∀ c : TP, compressTerms [c] = [c]) ∧
    tensorCompress ⟨[⟨[e1c, e2c], 2, false⟩, ⟨[e1c, e2c], -2, false⟩]⟩ = none := by
  refine ⟨compressTerms_pair a b h, compressTerms_singleton, ?_⟩
  have hpair := compressTerms_pair ⟨[e1c, e2c], 2, false⟩ ⟨[e1c, e2c], -2, false⟩ (by decide)
  norm_num at hpair
  simp [tensorCompress, hpair]

/-- Witness for `c1_compress_pair_merge` at two concrete same-basis terms. -/
theorem c1_compress_pair_merge_witness :
    compressTerms [⟨[e1c], 2, false⟩, ⟨[e1c], 3, false⟩] =
      (if (2 : Rat) + 3 = 0 then []
       else [⟨[e1c], (2 : Rat) + 3, false⟩]) ∧
    (∀ c : TP, compressTerms [c] = [c]) ∧
    tensorCompress ⟨[⟨[e1c, e2c], 2, false⟩, ⟨[e1c, e2c], -2, false⟩]⟩ = none :=
  c1_compress_pair_merge ⟨[e1c], 2, false⟩ ⟨[e1c], 3, false⟩ (by decide)

/-- C1 counterexample: a Tensor whose single term has coefficient zero does
not compress to the Scalar zero — the zero term survives because no removal
preceded it, contradicting "drops every term whose simplified coefficient is
zero". -/
theorem c1_zero_term_not_dropped :
    tensorCompress ⟨[⟨[e1c], 0, false⟩]⟩ = some ⟨[⟨[e1c], 0, false⟩]⟩ := by
  have h := compressTerms_singleton ⟨[e1c], 0, false⟩
  simp [tensorCompress, h]

/-- C5 (amended): compression is idempotent — compressing an
already-compressed Tensor returns it unchanged, term for term. (The other
half of the original claim, independence from the input term order, fails;
see the counterexample.) -/
theorem c5_compress_idempotent (t t' : Tensor) (h : tensorCompress t = some t') :
    tensorCompress t' = some t' := by
  unfold tensorCompress at h
  by_cases he : (compressTerms t.terms).isEmpty
  · rw [if_pos he] at h
    cases h
  · rw [if_neg he] at h
    injection h with h
    subst h
    show (if (compressTerms (compressTerms t.terms)).isEmpty then (none : Option Tensor)
          else some ⟨compressTerms (compressTerms t.terms)⟩) = some ⟨compressTerms t.terms⟩
    rw [compressTerms_idem, if_neg he]

/-- Witness for `c5_compress_idempotent` at a concrete one-term tensor. -/
theorem c5_compress_idempotent_witness :
    tensorCompress ⟨[⟨[e1c], 1, false⟩]⟩ = some ⟨[⟨[e1c], 1, false⟩]⟩ :=
  c5_compress_idempotent ⟨[⟨[e1c], 1, false⟩]⟩ ⟨[⟨[e1c], 1, false⟩]⟩ (by decide)

/-- C5 counterexample: the compressed result does depend on the order of the
input terms. The same three terms in two input orders compress to genuinely
different term collections: when the zero-coefficient term comes first, no
removal precedes its zero check and it is kept; when it comes last, the
earlier merge makes `removed_elements` non-empty and it is dropped. -/
theorem c5_compress_order_dependent :
    compressTerms [⟨[e1c], 0, false⟩, ⟨[e2c], 1, false⟩, ⟨[e2c], 1, false⟩] =
      [⟨[e1c], 0, false⟩, ⟨[e2c], 2, false⟩] ∧
    compressTerms [⟨[e2c], 1, false⟩, ⟨[e2c], 1, false⟩, ⟨[e1c], 0, false⟩] =
      [⟨[e2c], 2, false⟩] := by
  constructor <;>
    norm_num [compressTerms, compressOuter, compressOuterStep, compressZeroCheck, compressInner,
      compressInnerStep, hasSameBasisElement, simplify, e1c, e2c, VectorConstant,
      show List.range 3 = [0, 1, 2] from rfl, List.range']

/-- C2 (amended): the dot product performs no dimension check: it returns
the sum of the elementwise products over the common prefix of the two
component lists (Python `zip` silently truncates to the shorter operand).
For equal dimensions this is the claimed elementwise product sum. -/
theorem c2_dot_eq_sum_of_common_prefix (v w : Vec) :
    vecDot v w = ∑ i ∈ Finset.range (min v.components.length w.components.length),
      v.components.getD i 0 * w.components.getD i 0 :=
  zipWith_mul_sum_eq v.components w.components

/-- C2 counterexample: dotting a 1-component vector with a 2-component one
does not fail — `_VectorFunction.__or__` has no dimension check at all — it
silently returns the truncated product sum. -/
theorem c2_dot_mismatched_dims_returns_value :
    vecDot (VectorConstant ['a'] [1]) (VectorConstant ['b'] [1, 1]) = 1 ∧
    (VectorConstant ['a'] [1]).components.length ≠
      (VectorConstant ['b'] [1, 1]).components.length := by
  constructor
  · norm_num [vecDot, VectorConstant]
  · decide

/-- C6 (amended): for the constant vectors `e1=(1,0,0)` and `e2=(0,1,0)`:
`dot(e1,e2) = 0`, `dot(e1,e1) = 1`, the contraction of the rank-2
TensorProduct `e1⊗e2` with itself yields `1` (not `0` — the asymmetric
contraction pairs slots positionally, giving `dot(e1,e1)*dot(e2,e2)`), and
`e1⊗e1` contracted with itself yields `1`. -/
theorem c6_end_to_end_values :
    vecDot e1c e2c = 0 ∧ vecDot e1c e1c = 1 ∧
    tpContract ⟨[e1c, e2c], 1, false⟩ ⟨[e1c, e2c], 1, false⟩ = some 1 ∧
    tpContract ⟨[e1c, e1c], 1, false⟩ ⟨[e1c, e1c], 1, false⟩ = some 1 := by
  refine ⟨?_, ?_, ?_, ?_⟩ <;>
    norm_num [tpContract, TP.rank, vecDot, e1c, e2c, VectorConstant, simplify]

/-- C6 counterexample: the claimed value `0` for `e1⊗e2` contracted with
itself is wrong — the contraction yields `1`. -/
theorem c6_contract_e1e2_self_not_zero :
    tpContract ⟨[e1c, e2c], 1, false⟩ ⟨[e1c, e2c], 1, false⟩ ≠ some 0 := by
  norm_num [tpContract, TP.rank, vecDot, e1c, e2c, VectorConstant, simplify]

/-- C7 (amended): differentiating a constant Vector returns the plain
Scalar `0` (the `lambda self, *args, **kwargs: 0` installed by
`VectorConstant`), not a Vector of zero components. -/
theorem c7_constant_diff_scalar_zero (d : Rat → Rat) (v : Vec) (param : List Char)
    (h : v.isConstant = true) : vectorDiff d v param = .scalar 0 := by
  unfold vectorDiff
  rw [if_pos h]

/-- Witness for `c7_constant_diff_scalar_zero` at the concrete constant
vector `e1`. -/
theorem c7_constant_diff_scalar_zero_witness :
    vectorDiff (fun q => q) e1c ['t'] = .scalar 0 :=
  c7_constant_diff_scalar_zero (fun q => q) e1c ['t'] (by decide)

/-- C7 counterexample: the claim says differentiation of a constant vector
returns a constant Vector (of zero components); the result is not a Vector
at all. -/
theorem c7_constant_diff_not_vector :
    (vectorDiff (fun q => q) e1c ['t']).isVec = false := by decide

/-- C10: basis-element comparison uses multiset equality of the vector lists
when the receiver is symmetric and ordered-list equality otherwise, ignoring
the argument's flag; consequently, with mixed flags and permuted vectors the
relation is not symmetric. -/
theorem c10_basis_element_rule :
    (∀ a b : TP, a.symmetric = true →
      (hasSameBasisElement a b = true ↔ a.vectors.Perm b.vectors)) ∧
    (∀ a b : TP, a.symmetric = false →
      (hasSameBasisElement a b = true ↔ a.vectors = b.vectors)) ∧
    hasSameBasisElement ⟨[e1c, e2c], 1, true⟩ ⟨[e2c, e1c], 1, false⟩ = true ∧
    hasSameBasisElement ⟨[e2c, e1c], 1, false⟩ ⟨[e1c, e2c], 1, true⟩ = false := by
  refine ⟨?_, ?_, by decide, by decide⟩
  · intro a b h
    simp [hasSameBasisElement, h]
  · intro a b h
    simp [hasSameBasisElement, h]

/-- Witness for `c10_basis_element_rule`: both general branches applied at
concrete tensor products. -/
theorem c10_basis_element_rule_witness :
    hasSameBasisElement ⟨[e1c], 1, true⟩ ⟨[e1c], 1, false⟩ = true ∧
    hasSameBasisElement ⟨[e1c], 2, false⟩ ⟨[e1c], 3, false⟩ = true :=
  ⟨(c10_basis_element_rule.1 ⟨[e1c], 1, true⟩ ⟨[e1c], 1, false⟩ rfl).mpr (by decide),
   (c10_basis_element_rule.2.1 ⟨[e1c], 2, false⟩ ⟨[e1c], 3, false⟩ rfl).mpr rfl⟩

/-- Operand/result values flowing through `_TensorFunction.__add__`: a bare
sympy scalar, a TensorProduct, or a Tensor. -/
inductive TValue where
  | scalar (q : Rat)
  | tp (t : TP)
  | tensor (t : Tensor)
deriving DecidableEq, Repr

/-- Exceptions `_TensorFunction.__add__` can raise: `AttributeError` when a
bare scalar operand's missing `rank` attribute is accessed, and the
`ValueError` rank-mismatch. -/
inductive AddErr where
  | attrError
  | rankMismatch
deriving DecidableEq, Repr

/-- Python `T == 0` on the operand of `__add__`: only a scalar can equal the
scalar zero; Tensor and TensorProduct instances never compare equal to 0. -/
def tvalueEqZero : TValue → Bool
  | .scalar q => q == 0
  | .tp _ => false
  | .tensor _ => false

/-- Python `_TensorFunction.__add__`, line for line: return `self` when the
operand equals 0; return the operand when `self` has rank 0; accessing
`.rank` on a bare scalar raises `AttributeError`; return `self` when the
operand has rank 0; raise the rank-mismatch `ValueError` on differing ranks;
otherwise concatenate the term lists (no compression). -/
def tensorAdd (self : Tensor) (T : TValue) : Except AddErr TValue :=
  if tvalueEqZero T then .ok (.tensor self)
  else if self.rank == 0 then .ok T
  else match T with
    | .scalar _ => .error .attrError
    | .tp t2 =>
      if t2.rank == 0 then .ok (.tensor self)
      else if t2.rank ≠ self.rank then .error .rankMismatch
      else .ok (.tensor ⟨self.terms ++ [t2]⟩)
    | .tensor t2 =>
      if t2.rank == 0 then .ok (.tensor self)
      else if t2.rank ≠ self.rank then .error .rankMismatch
      else .ok (.tensor ⟨self.terms ++ t2.terms⟩)

/-- C4 (amended): adding the Scalar zero to a Tensor is the identity, but a
rank-0 operand is not rejected: a rank-0 Tensor or TensorProduct operand
makes `__add__` return the Tensor unchanged, and a nonzero bare-scalar
operand raises `AttributeError` (scalars have no `rank` attribute) rather
than the `RankMismatch` `ValueError`. -/
theorem c4_add_zero_and_rank0_behavior :
    (∀ t : Tensor, tensorAdd t (.scalar 0) = .ok (.tensor t)) ∧
    (∀ t u : Tensor, t.rank ≠ 0 → u.rank = 0 →
      tensorAdd t (.tensor u) = .ok (.tensor t)) ∧
    (∀ (t : Tensor) (p : TP), t.rank ≠ 0 → p.rank = 0 →
      tensorAdd t (.tp p) = .ok (.tensor t)) ∧
    (∀ (t : Tensor) (q : Rat), q ≠ 0 → t.rank ≠ 0 →
      tensorAdd t (.scalar q) = .error .attrError) := by
  refine ⟨?_, ?_, ?_, ?_⟩
  · intro t
    simp [tensorAdd, tvalueEqZero]
  · intro t u ht hu
    simp [tensorAdd, tvalueEqZero, ht, hu]
  · intro t p ht hp
    simp [tensorAdd, tvalueEqZero, ht, hp]
  · intro t q hq ht
    simp [tensorAdd, tvalueEqZero, hq, ht]

/-- Witness for `c4_add_zero_and_rank0_behavior`: a nonzero bare scalar
added to a rank-1 tensor raises `AttributeError`. -/
theorem c4_add_zero_and_rank0_behavior_witness :
    tensorAdd ⟨[⟨[e1c], 1, false⟩]⟩ (.scalar 5) = .error .attrError :=
  c4_add_zero_and_rank0_behavior.2.2.2 ⟨[⟨[e1c], 1, false⟩]⟩ 5 (by norm_num) (by decide)

/-- C4 counterexample: adding a rank-0 Tensor operand to a rank-1 Tensor is
not rejected with a rank mismatch — `__add__` just returns `self`. -/
theorem c4_rank0_operand_not_rejected :
    tensorAdd ⟨[⟨[e1c], 1, false⟩]⟩ (.tensor ⟨[]⟩) =
      .ok (.tensor ⟨[⟨[e1c], 1, false⟩]⟩) := rfl

/-- C3: on the intended reading of the symmetric branch (with the missing
`factorial` import supplied), symmetric contraction of equal-rank tensor
products equals the simplified scaled coefficient
`coefficient_self * coefficient_other / rank!` times the sum over all
permutations of the products of pairwise dots; the zero short-circuit branch
returns `0`, which agrees with the formula. -/
theorem c3_symmetric_contract_formula (A B : TP) (hs : A.symmetric = true)
    (hr : B.rank = A.rank) :
    tpContract A B =
      some (A.coefficient * B.coefficient / (Nat.factorial A.rank : Rat) * permSum A B) := by
  unfold tpContract
  rw [if_neg (by simp [hr]), if_pos hs]
  simp only [simplify]
  by_cases hz : A.coefficient * B.coefficient * (1 / (Nat.factorial A.rank : Rat)) = 0
  · rw [if_pos hz]
    rw [mul_one_div] at hz
    rw [hz, zero_mul]
  · rw [if_neg hz, mul_one_div]

/-- Witness for `c3_symmetric_contract_formula` at concrete rank-1 symmetric
tensor products. -/
theorem c3_symmetric_contract_formula_witness :
    tpContract ⟨[e1c], 2, true⟩ ⟨[e1c], 3, true⟩ =
      some ((2 : Rat) * 3 / (Nat.factorial 1 : Rat) *
        permSum ⟨[e1c], 2, true⟩ ⟨[e1c], 3, true⟩) :=
  c3_symmetric_contract_formula ⟨[e1c], 2, true⟩ ⟨[e1c], 3, true⟩ rfl rfl

/-- One inner-loop step of `compress` in the heap model for C8: a tensor's
`tensor_products` list holds references (store indices) to shared
TensorProduct objects, and the merge writes through the reference, mutating
the shared object in the store. -/
def storeInnerStep (ids : List Nat) (i j : Nat) (st : List TP × List Nat) :
    List TP × List Nat :=
  if j ∈ st.2 then st
  else if hasSameBasisElement (st.1.getD (ids.getD i 0) default)
      (st.1.getD (ids.getD j 0) default) then
    (st.1.set (ids.getD i 0) { st.1.getD (ids.getD i 0) default with
        coefficient := simplify ((st.1.getD (ids.getD i 0) default).coefficient +
          (st.1.getD (ids.getD j 0) default).coefficient) },
     st.2 ++ [j])
  else st

/-- The inner loop of `compress` in the heap model. -/
def storeInner (ids : List Nat) (i : Nat) : List Nat → (List TP × List Nat) → List TP × List Nat
  | [], st => st
  | j :: js, st => storeInner ids i js (storeInnerStep ids i j st)

/-- The conditional zero-coefficient drop of `compress` in the heap model. -/
def storeZeroCheck (ids : List Nat) (i : Nat) (st : List TP × List Nat) :
    List TP × List Nat :=
  if st.2 ≠ [] ∧ (st.1.getD (ids.getD i 0) default).coefficient = 0 then (st.1, st.2 ++ [i])
  else st

/-- One outer-loop step of `compress` in the heap model. -/
def storeOuterStep (ids : List Nat) (n i : Nat) (st : List TP × List Nat) :
    List TP × List Nat :=
  if i ∈ st.2 then st
  else storeZeroCheck ids i (storeInner ids i (List.range' (i + 1) (n - (i + 1))) st)

/-- The outer loop of `compress` in the heap model. -/
def storeOuter (ids : List Nat) (n : Nat) :
    List Nat → (List TP × List Nat) → List TP × List Nat
  | [], st => st
  | i :: is, st => storeOuter ids n is (storeOuterStep ids n i st)

/-- Python `_TensorFunction.compress` in the heap model: it returns the
mutated store together with the compressed tensor's new reference list
(`none` models degeneration to the scalar `0`). Tensors that are not being
compressed keep their old reference lists into the same store. -/
def storeCompress (store : List TP) (ids : List Nat) : List TP × Option (List Nat) :=
  let st := storeOuter ids ids.length (List.range ids.length) (store, [])
  let newIds := ((List.range ids.length).filter (fun k => decide (k ∉ st.2))).map
    (fun k => ids.getD k 0)
  (st.1, if newIds.isEmpty then none else some newIds)

/-- The coefficients a tensor observes through its reference list. -/
def viewCoefficients (store : List TP) (ids : List Nat) : List Rat :=
  ids.map (fun id => (store.getD id default).coefficient)

/-- C8 (amended): compression mutates shared TensorProduct objects in place:
`self.tensor_products[i].coefficient = simplify(...)` writes through the
reference, so a second Tensor holding the same TensorProduct object observes
a changed coefficient after the first Tensor is compressed. Here T1 = [0, 1]
and T2 = [0] share object 0 (coefficient 2); compressing T1 merges object 1
(coefficient 3) into object 0, and T2 then reads coefficient 5. -/
theorem c8_compress_mutates_store :
    storeCompress [⟨[e1c], 2, false⟩, ⟨[e1c], 3, false⟩] [0, 1] =
      ([⟨[e1c], 5, false⟩, ⟨[e1c], 3, false⟩], some [0]) ∧
    viewCoefficients
      (storeCompress [⟨[e1c], 2, false⟩, ⟨[e1c], 3, false⟩] [0, 1]).1 [0] = [5] := by
  have h : storeCompress [⟨[e1c], 2, false⟩, ⟨[e1c], 3, false⟩] [0, 1] =
      ([⟨[e1c], 5, false⟩, ⟨[e1c], 3, false⟩], some [0]) := by
    norm_num [storeCompress, storeOuter, storeOuterStep, storeZeroCheck, storeInner,
      storeInnerStep, viewCoefficients, hasSameBasisElement, simplify,
      show List.range 2 = [0, 1] from rfl, List.range', List.getD]
  refine ⟨h, ?_⟩
  rw [h]
  norm_num [viewCoefficients]

/-- C8 counterexample: before compression of T1, the sharing Tensor T2 reads
coefficient 2 through its reference; afterwards it reads 5 — its observed
terms are altered, contradicting the claimed "produces a new term list
rather than mutating shared term objects". -/
theorem c8_shared_term_mutated :
    viewCoefficients [⟨[e1c], 2, false⟩, ⟨[e1c], 3, false⟩] [0] = [2] ∧
    viewCoefficients
        (storeCompress [⟨[e1c], 2, false⟩, ⟨[e1c], 3, false⟩] [0, 1]).1 [0] ≠ [2] := by
  constructor
  · norm_num [viewCoefficients]
  · norm_num [storeCompress, storeOuter, storeOuterStep, storeZeroCheck, storeInner,
      storeInnerStep, viewCoefficients, hasSameBasisElement, simplify,
      show List.range 2 = [0, 1] from rfl, List.range', List.getD]

/-- Scanning for the first `^{` walks past any prefix that contains no
caret. -/
lemma splitFirstCaretBrace_append_of_no_caret (pre rest : List Char) (h : '^' ∉ pre) :
    splitFirstCaretBrace (pre ++ '^' :: '\x7b' :: rest) = some (pre, rest) := by
  induction pre with
  | nil => simp [splitFirstCaretBrace]
  | cons c cs ih =>
    have hc : c ≠ '^' := fun hch => h (by simp [hch])
    have hcs : '^' ∉ cs := fun hm => h (List.mem_cons_of_mem c hm)
    cases cs with
    | nil =>
      show splitFirstCaretBrace (c :: '^' :: '\x7b' :: rest) = some ([c], rest)
      rw [splitFirstCaretBrace, if_neg (fun hand => hc hand.1)]
      simp [splitFirstCaretBrace]
    | cons c2 cs' =>
      have ih' := ih hcs
      rw [List.cons_append] at ih'
      show splitFirstCaretBrace (c :: c2 :: (cs' ++ '^' :: '\x7b' :: rest)) =
        some (c :: c2 :: cs', rest)
      rw [splitFirstCaretBrace, if_neg (fun hand => hc hand.1), ih']

/-- A brace-free string has no last-brace split. -/
lemma splitLastBrace_of_no_brace (l : List Char) (h : '\x7d' ∉ l) :
    splitLastBrace l = none := by
  induction l with
  | nil => rfl
  | cons c cs ih =>
    have hc : c ≠ '\x7d' := fun hch => h (by simp [hch])
    have hcs : '\x7d' ∉ cs := fun hm => h (List.mem_cons_of_mem c hm)
    rw [splitLastBrace, ih hcs, if_neg hc]

/-- When neither side of the explicit closing brace contains another one,
the last-brace split lands exactly on it. -/
lemma splitLastBrace_append (ds suffix : List Char) (hds : '\x7d' ∉ ds)
    (hsuf : '\x7d' ∉ suffix) :
    splitLastBrace (ds ++ '\x7d' :: suffix) = some (ds, suffix) := by
  induction ds with
  | nil =>
    show splitLastBrace ('\x7d' :: suffix) = some ([], suffix)
    rw [splitLastBrace, splitLastBrace_of_no_brace suffix hsuf, if_pos rfl]
  | cons c cs ih =>
    have hcs : '\x7d' ∉ cs := fun hm => hds (List.mem_cons_of_mem c hm)
    show splitLastBrace (c :: (cs ++ '\x7d' :: suffix)) = some (c :: cs, suffix)
    rw [splitLastBrace, ih hcs]

/-- A nonempty all-digit numeral parses to its value. -/
lemma parseInt_digits (ds : List Char) (h1 : ds ≠ []) (h2 : ds.all Char.isDigit = true) :
    parseInt ds = some ((digitsVal ds : Int)) := by
  rw [parseInt, if_neg ?hm, if_neg (by simpa using h1), if_pos h2]
  case hm =>
    intro heq
    cases ds with
    | nil => exact h1 rfl
    | cons c cs =>
      have hc : c = '-' := by
        simpa using heq
      have hdig : c.isDigit = true := (Bool.and_eq_true .. ▸ (List.all_cons .. ▸ h2)).1
      rw [hc] at hdig
      exact absurd hdig (by decide)

/-- Digits are not closing braces. -/
lemma no_brace_of_digits (ds : List Char) (h : ds.all Char.isDigit = true) : '\x7d' ∉ ds := by
  intro hm
  have := List.all_eq_true.mp h _ hm
  exact absurd this (by decide)

/-- On a nonnegative integer the decimal rendering agrees with the natural
one. -/
lemma intToStr_ofNat (n : Nat) : intToStr ((n : Int) + 1) = natToStr (n + 1) := by
  have h : ((n : Int) + 1).toNat = n + 1 := by omega
  rw [intToStr, if_neg (by omega), h]

/-- Branch 3 of `DifferentiateString` for parameter `t`: a name that does
not begin with `\partial_t` gets a bare order-1 marker prepended. -/
lemma differentiateString_fresh (s : List Char)
    (h : (derivStem ['t']).isPrefixOf s = false) :
    differentiateString s ['t'] = some (derivStem ['t'] ++ ' ' :: s) := by
  rw [differentiateString, if_neg ?h1, if_neg (by simp [h])]
  · rfl
  case h1 =>
    intro hpre
    have h1 : (derivStem ['t'] ++ ['^', '\x7b']) <+: s := List.isPrefixOf_iff_prefix.mp hpre
    have h2 : derivStem ['t'] <+: s := (List.prefix_append _ _).trans h1
    rw [← List.isPrefixOf_iff_prefix] at h2
    rw [h] at h2
    cases h2

/-- Branch 2 of `DifferentiateString` for parameter `t`: a name beginning
with the bare marker `\partial_t` (but not with `\partial_t^{`) is rewritten
with an explicit order-2 marker; the fixed `s[10:]` slice removes exactly
the 10-character stem `\partial_t`, so the remaining suffix is preserved. -/
lemma differentiateString_bare (suffix : List Char)
    (h : (['^', '\x7b'] : List Char).isPrefixOf suffix = false) :
    differentiateString (derivStem ['t'] ++ suffix) ['t'] =
      some (derivStem ['t'] ++ '^' :: '\x7b' :: '2' :: '\x7d' :: suffix) := by
  rw [differentiateString, if_neg ?h1, if_pos ?h2]
  · rw [show (10 : Nat) = (derivStem ['t']).length from rfl, List.drop_left]
    rfl
  case h1 =>
    intro hpre
    have h1 : (derivStem ['t'] ++ ['^', '\x7b']) <+: derivStem ['t'] ++ suffix :=
      List.isPrefixOf_iff_prefix.mp hpre
    have h2 : (['^', '\x7b'] : List Char) <+: suffix :=
      (List.prefix_append_right_inj _).mp h1
    rw [← List.isPrefixOf_iff_prefix] at h2
    rw [h] at h2
    cases h2
  case h2 =>
    exact List.isPrefixOf_iff_prefix.mpr (List.prefix_append _ _)

/-- Branch 1 of `DifferentiateString` for parameter `t`: a name beginning
with an explicit-order marker `\partial_t^{k}` (decimal numeral `k`, suffix
free of closing braces) has the order incremented to `k+1` and the suffix
preserved. -/
lemma differentiateString_increment (ds suffix : List Char) (h1 : ds ≠ [])
    (h2 : ds.all Char.isDigit = true) (hsuf : '\x7d' ∉ suffix) :
    differentiateString (derivStem ['t'] ++ '^' :: '\x7b' :: (ds ++ '\x7d' :: suffix)) ['t'] =
      some (derivStem ['t'] ++ '^' :: '\x7b' :: (natToStr (digitsVal ds + 1) ++ '\x7d' :: suffix)) := by
  rw [differentiateString, if_pos ?hp]
  · rw [splitFirstCaretBrace_append_of_no_caret _ _ (by decide)]
    simp only [splitLastBrace_append ds suffix (no_brace_of_digits ds h2) hsuf,
      parseInt_digits ds h1 h2, intToStr_ofNat]
    simp
  case hp =>
    apply List.isPrefixOf_iff_prefix.mpr
    have hassoc : derivStem ['t'] ++ '^' :: '\x7b' :: (ds ++ '\x7d' :: suffix) =
        (derivStem ['t'] ++ ['^', '\x7b']) ++ (ds ++ '\x7d' :: suffix) := by
      simp
    rw [hassoc]
    exact List.prefix_append _ _

/-- C9 (amended): for the single-character parameter `t` the three-way rule
holds: a name not beginning with `\partial_t` gets a bare order-1 marker
prepended; a name beginning with `\partial_t` but not `\partial_t^{` is
rewritten with an explicit order-2 marker, the suffix after the 10-character
stem preserved; a name beginning with `\partial_t^{k}` (decimal `k`,
brace-free remainder) has the order incremented to `k+1`. Consequently,
bumping `"V"` three times yields the order-1, order-2 and order-3 marker
forms. (For parameters of length ≠ 1 the fixed `s[10:]` slice breaks the
rule; see the counterexample.) -/
theorem c9_bump_rule_param_t :
    (∀ s : List Char, (derivStem ['t']).isPrefixOf s = false →
      differentiateString s ['t'] = some (derivStem ['t'] ++ ' ' :: s)) ∧
    (∀ suffix : List Char, (['^', '\x7b'] : List Char).isPrefixOf suffix = false →
      differentiateString (derivStem ['t'] ++ suffix) ['t'] =
        some (derivStem ['t'] ++ '^' :: '\x7b' :: '2' :: '\x7d' :: suffix)) ∧
    (∀ ds suffix : List Char, ds ≠ [] → ds.all Char.isDigit = true → '\x7d' ∉ suffix →
      differentiateString (derivStem ['t'] ++ '^' :: '\x7b' :: (ds ++ '\x7d' :: suffix)) ['t'] =
        some (derivStem ['t'] ++ '^' :: '\x7b' ::
          (natToStr (digitsVal ds + 1) ++ '\x7d' :: suffix))) ∧
    (differentiateString "V".toList ['t'] = some "\\partial_t V".toList ∧
      differentiateString "\\partial_t V".toList ['t'] = some "\\partial_t^\x7b2\x7d V".toList ∧
      differentiateString "\\partial_t^\x7b2\x7d V".toList ['t'] =
        some "\\partial_t^\x7b3\x7d V".toList) :=
  ⟨differentiateString_fresh, differentiateString_bare, differentiateString_increment,
    by decide, by decide, by decide⟩

/-- Witness for `c9_bump_rule_param_t`: each branch applied at a concrete
name. -/
theorem c9_bump_rule_param_t_witness :
    differentiateString ['V'] ['t'] = some (derivStem ['t'] ++ ' ' :: ['V']) ∧
    differentiateString (derivStem ['t'] ++ [' ', 'V']) ['t'] =
      some (derivStem ['t'] ++ '^' :: '\x7b' :: '2' :: '\x7d' :: [' ', 'V']) ∧
    differentiateString (derivStem ['t'] ++ '^' :: '\x7b' :: (['2'] ++ '\x7d' :: [' ', 'V'])) ['t'] =
      some (derivStem ['t'] ++ '^' :: '\x7b' ::
        (natToStr (digitsVal ['2'] + 1) ++ '\x7d' :: [' ', 'V'])) :=
  ⟨c9_bump_rule_param_t.1 ['V'] (by decide),
    c9_bump_rule_param_t.2.1 [' ', 'V'] (by decide),
    c9_bump_rule_param_t.2.2.1 ['2'] [' ', 'V'] (by decide) (by decide) (by decide)⟩

/-- C9 counterexample: for the two-character parameter `"xy"` the fixed
`s[10:]` slice cuts inside the marker, so bumping the bare-marker name
`\partial_xy V` produces the mangled `\partial_xy^{2}y V` instead of the
claimed `\partial_xy^{2} V`: the three-way rule does not hold for arbitrary
parameters. -/
theorem c9_two_char_param_mangles :
    differentiateString "\\partial_xy V".toList "xy".toList =
      some "\\partial_xy^\x7b2\x7dy V".toList ∧
    ("\\partial_xy^\x7b2\x7dy V".toList : List Char) ≠ "\\partial_xy^\x7b2\x7d V".toList := by
  constructor
  · decide
  · decide
